import Mathlib

/-!
Shallow embedding of `machetli/tools.py`: the batching utility, the state
codec (`write_state` / `read_state`), the output parser (`parse`), and the
`Run` class with its resource-limit preparation (`Run.start` / `_prepare_call`
/ `_set_limit`).
-/

namespace Machetli

/-! ### Batching utility (`batched`, tools.py lines 23-38)

The Python generator repeatedly takes a tuple of the next `n` elements of the
iterable until the iterable is exhausted; `n < 1` raises `ValueError`.
We embed the loop as structural recursion over a list.  The helper takes the
batch size minus one so that the batch size `m + 1` is positive by
construction, exactly the situation after the guard `n < 1` in the source. -/

def batchedGo (m : Nat) : List α → List (List α)
  | [] => []
  | x :: xs => ((x :: xs).take (m + 1)) :: batchedGo m ((x :: xs).drop (m + 1))
termination_by l => l.length
decreasing_by simp_all [List.drop]; omega

/-- Embedding of `batched(iterable, n)`: raises `ValueError` when `n < 1`,
otherwise yields the successive tuples of length `n` (the last possibly
shorter). -/
def batched (l : List α) (n : Int) : Except String (List (List α)) :=
  if n < 1 then .error "n must be at least one"
  else .ok (batchedGo (n.toNat - 1) l)

theorem batchedGo_flatten (m : Nat) (l : List α) : (batchedGo m l).flatten = l := by
  induction l using batchedGo.induct m with
  | case1 => simp [batchedGo]
  | case2 x xs ih =>
    rw [batchedGo, List.flatten_cons, ih]
    exact List.take_append_drop (m + 1) (x :: xs)

theorem batchedGo_eq_nil_iff (m : Nat) (l : List α) : batchedGo m l = [] ↔ l = [] := by
  cases l with
  | nil => simp [batchedGo]
  | cons x xs => simp [batchedGo]

theorem batchedGo_mem_length (m : Nat) (l : List α) :
    ∀ c ∈ batchedGo m l, 1 ≤ c.length ∧ c.length ≤ m + 1 := by
  induction l using batchedGo.induct m with
  | case1 => simp [batchedGo]
  | case2 x xs ih =>
    rw [batchedGo]
    intro c hc
    rcases List.mem_cons.mp hc with h | h
    · subst h
      simp only [List.length_take, List.length_cons]
      omega
    · exact ih c h

theorem batchedGo_dropLast_length (m : Nat) (l : List α) :
    ∀ c ∈ (batchedGo m l).dropLast, c.length = m + 1 := by
  induction l using batchedGo.induct m with
  | case1 => simp [batchedGo]
  | case2 x xs ih =>
    rw [batchedGo]
    by_cases hrest : (x :: xs).drop (m + 1) = []
    · rw [hrest]
      simp [batchedGo]
    · have hne : batchedGo m ((x :: xs).drop (m + 1)) ≠ [] := by
        rw [Ne, batchedGo_eq_nil_iff]; exact hrest
      rw [List.dropLast_cons_of_ne_nil hne]
      intro c hc
      rcases List.mem_cons.mp hc with h | h
      · subst h
        have hlen : m + 1 < (x :: xs).length := by
          by_contra hle
          exact hrest (List.drop_eq_nil_of_le (by omega))
        simp only [List.length_take, List.length_cons] at hlen ⊢
        omega
      · exact ih c h

/-- C3: for every finite sequence `s` and every integer `n ≥ 1`, `batched s n`
succeeds, concatenating all produced tuples in order reproduces `s` exactly,
every tuple except possibly the last has length exactly `n`, and every tuple
(in particular the last) has length between 1 and `n`. -/
theorem batched_partition_spec (s : List α) (n : Int) (h : 1 ≤ n) :
    ∃ chunks : List (List α),
      batched s n = .ok chunks ∧
      chunks.flatten = s ∧
      (∀ c ∈ chunks.dropLast, (c.length : Int) = n) ∧
      (∀ c ∈ chunks, 1 ≤ c.length ∧ (c.length : Int) ≤ n) := by
  have hn : ¬ n < 1 := by omega
  have hm : n.toNat - 1 + 1 = n.toNat := by omega
  refine ⟨batchedGo (n.toNat - 1) s, ?_, batchedGo_flatten _ s, ?_, ?_⟩
  · simp [batched, hn]
  · intro c hc
    have := batchedGo_dropLast_length (n.toNat - 1) s c hc
    omega
  · intro c hc
    have := batchedGo_mem_length (n.toNat - 1) s c hc
    omega

theorem batched_partition_spec_witness :
    ∃ chunks : List (List Nat),
      batched [1, 2, 3, 4, 5] (2 : Int) = .ok chunks ∧
      chunks.flatten = [1, 2, 3, 4, 5] ∧
      (∀ c ∈ chunks.dropLast, (c.length : Int) = 2) ∧
      (∀ c ∈ chunks, 1 ≤ c.length ∧ (c.length : Int) ≤ 2) :=
  batched_partition_spec [1, 2, 3, 4, 5] 2 (by decide)

/-- C8: for every sequence and every integer `n < 1`, `batched` fails with the
invalid-argument error `ValueError("n must be at least one")`. -/
theorem batched_invalid_n (s : List α) (n : Int) (h : n < 1) :
    batched s n = .error "n must be at least one" := by
  simp [batched, h]

theorem batched_invalid_n_witness :
    batched ([1, 2, 3] : List Nat) (0 : Int) = .error "n must be at least one" :=
  batched_invalid_n [1, 2, 3] 0 (by decide)

/-! ### Output parser (`parse`, tools.py lines 179-215)

`parse(content, pattern, type)` runs `re.compile(pattern).search(content)`.
On no match it logs at debug level and returns `None` (absent).  On a match
it reads `match.group(1)`; an `IndexError` (the pattern has no capture group)
is reported through `logging.critical`, which is fatal under the module's
logging configuration (`ErrorAbortHandler` exits on critical records).
Otherwise the captured string is passed to the conversion `type(value)`, and
an exception raised by the conversion propagates to the caller.

The regular-expression engine (`re`) is external library code; we embed a
match as the list of its capture groups (groups 1, 2, ...), a compiled
pattern as a search function `String → Option ReMatch`, and a conversion
`type` as `String → Except String τ`.  The control flow of `parse` itself is
translated from the source. -/

structure ReMatch where
  groups : List String
deriving DecidableEq

inductive ParseResult (τ : Type) where
  /-- the converted value of the first capture group was returned -/
  | value : τ → ParseResult τ
  /-- no match: `parse` logs at debug level and returns `None` -/
  | absent : ParseResult τ
  /-- `logging.critical` fired, which terminates the program under
  `configure_logging` -/
  | critical : String → ParseResult τ
  /-- the conversion `type(value)` raised; the exception propagates -/
  | convError : String → ParseResult τ
deriving DecidableEq

def parse (search : String → Option ReMatch) (type : String → Except String τ)
    (content : String) : ParseResult τ :=
  match search content with
  | some m =>
    match m.groups.head? with
    | none => .critical "Regular expression has no groups."
    | some value =>
      match type value with
      | .ok v => .value v
      | .error e => .convError e
  | none => .absent

/-! A concrete model of `re.search` for a literal pattern with no capture
group (such as `"Plan cost"`): succeed at the leftmost position where the
literal occurs, producing a match with no groups. -/

def matchLit : List Char → List Char → Option (List Char)
  | [], rest => some rest
  | _ :: _, [] => none
  | p :: ps, c :: cs => if c = p then matchLit ps cs else none

def litFind (pat : List Char) : List Char → Bool
  | [] => (matchLit pat []).isSome
  | c :: cs => (matchLit pat (c :: cs)).isSome || litFind pat cs

def litSearch (lit : String) (content : String) : Option ReMatch :=
  if litFind lit.data content.data then some ⟨[]⟩ else none

/-! A concrete model of `re.search` for the pattern `Plan cost: (\d+)`: the
leftmost position where the literal `"Plan cost: "` is followed by at least
one digit matches, and the maximal digit run is captured (greedy `\d+`). -/

def findPlanCost : List Char → Option (List Char)
  | [] => none
  | c :: cs =>
    match matchLit "Plan cost: ".data (c :: cs) with
    | some afterLit =>
      let ds := afterLit.takeWhile Char.isDigit
      if ds.isEmpty then findPlanCost cs else some ds
    | none => findPlanCost cs

def planCostSearch (content : String) : Option ReMatch :=
  (findPlanCost content.data).map (fun ds => ⟨[String.mk ds]⟩)

/-! A model of the Python conversion `int(s)`: an optional sign followed by a
nonempty digit string parses to the corresponding integer; anything else
raises `ValueError`. -/

def digitsVal (ds : List Char) : Nat :=
  ds.foldl (fun acc c => 10 * acc + (c.toNat - 48)) 0

def pyInt (s : String) : Except String Int :=
  match s.data with
  | [] => .error "invalid literal for int()"
  | c :: cs =>
    if c = '-' then
      if !cs.isEmpty && cs.all Char.isDigit then
        .ok (-(Int.ofNat (digitsVal cs)))
      else .error "invalid literal for int()"
    else
      if (c :: cs).all Char.isDigit then .ok (Int.ofNat (digitsVal (c :: cs)))
      else .error "invalid literal for int()"

def ParseResult.isCritical : ParseResult τ → Bool
  | .critical _ => true
  | _ => false

/-- C5: `parse` searches for the first match of the pattern anywhere in the
text; when the pattern does not match, `parse` returns the absent value
rather than raising; on a match the first capture group is converted to the
requested type.  Concretely, `parse "Plan cost: 42"` with pattern
`Plan cost: (\d+)` and type `int` returns 42, `parse "no match here"` returns
absent, and with two occurrences present the leftmost one is used. -/
theorem parse_match_and_absent :
    (∀ (τ : Type) (search : String → Option ReMatch)
       (type : String → Except String τ) (content : String),
       search content = none → parse search type content = .absent) ∧
    parse planCostSearch pyInt "Plan cost: 42" = .value 42 ∧
    parse planCostSearch pyInt "no match here" = .absent ∧
    parse planCostSearch pyInt "x Plan cost: 7 y Plan cost: 9" = .value 7 := by
  refine ⟨?_, by decide, by decide, by decide⟩
  intro τ search type content h
  simp [parse, h]

theorem parse_match_and_absent_witness :
    planCostSearch "no match here" = none ∧
    parse planCostSearch pyInt "no match here" = (ParseResult.absent : ParseResult Int) :=
  ⟨by decide,
   parse_match_and_absent.1 Int planCostSearch pyInt "no match here" (by decide)⟩

/-- C4 counterexample: with the groupless literal pattern `"Plan cost"` and a
text it does not match, `parse` returns absent and does not fail with a
critical error, contradicting the claim that a groupless pattern fails
regardless of whether it matches. -/
theorem parse_no_group_counterexample :
    parse (litSearch "Plan cost") pyInt "no match here"
      = (ParseResult.absent : ParseResult Int) ∧
    (parse (litSearch "Plan cost") pyInt "no match here"
      : ParseResult Int).isCritical = false := by
  constructor <;> decide

/-- C4 (amended): for every text and every pattern containing no capture
group, `parse` fails with a critical (fatal) error whenever the pattern
matches the text, and returns absent when the pattern does not match. -/
theorem parse_no_group_amended (τ : Type) (search : String → Option ReMatch)
    (type : String → Except String τ) (content : String)
    (hng : ∀ m, search content = some m → m.groups = []) :
    (∀ m, search content = some m →
       parse search type content = .critical "Regular expression has no groups.") ∧
    (search content = none → parse search type content = .absent) := by
  constructor
  · intro m hm
    have hg := hng m hm
    simp [parse, hm, hg]
  · intro h
    simp [parse, h]

theorem parse_no_group_amended_witness :
    litSearch "Plan cost" "Plan cost: 42" = some ⟨[]⟩ ∧
    parse (litSearch "Plan cost") pyInt "Plan cost: 42"
      = (ParseResult.critical "Regular expression has no groups." : ParseResult Int) :=
  ⟨by decide,
   (parse_no_group_amended Int (litSearch "Plan cost") pyInt "Plan cost: 42"
     (by
       intro m hm
       have h0 : litSearch "Plan cost" "Plan cost: 42" = some ⟨[]⟩ := by decide
       rw [h0] at hm
       cases hm
       rfl)).1 ⟨[]⟩ (by decide)⟩

/-- C6: when the pattern matches and the captured substring cannot be
converted to the requested type, `parse` propagates the type-conversion
error, an outcome distinct from the absent result returned on no match. -/
theorem parse_conversion_error (τ : Type) (search : String → Option ReMatch)
    (type : String → Except String τ) (content : String) (m : ReMatch)
    (v : String) (e : String) (hm : search content = some m)
    (hv : m.groups.head? = some v) (he : type v = .error e) :
    parse search type content = .convError e ∧
    (ParseResult.convError e : ParseResult τ) ≠ .absent := by
  constructor
  · simp [parse, hm, hv, he]
  · nofun

theorem parse_conversion_error_witness :
    parse (fun _ => some ⟨["abc"]⟩) pyInt "x"
      = ParseResult.convError "invalid literal for int()" ∧
    (ParseResult.convError "invalid literal for int()" : ParseResult Int) ≠ .absent :=
  parse_conversion_error Int (fun _ => some ⟨["abc"]⟩) pyInt "x" ⟨["abc"]⟩ "abc"
    "invalid literal for int()" rfl rfl (by rfl)

/-! ### The `Run` class (tools.py lines 218-318)

`Run.__init__(command, time_limit=1800, memory_limit=None, log_output=None,
input_file=None)` stores the fields; `start` builds the `_prepare_call`
closure over `time_limit` and `memory_limit`, launches the command through
`subprocess.Popen` with `_prepare_call` as `preexec_fn`, optionally reads the
input file and feeds it to the child's stdin, and returns the triple
`(stdout, stderr, returncode)`.

`_prepare_call` issues `setrlimit` requests in the child:
  * `RLIMIT_CPU` with `(time_limit, time_limit + 5)` when `time_limit` is not
    `None`;
  * `RLIMIT_AS` with `(memory_limit * 1024 * 1024, hard_mem_limit)` when
    `memory_limit` is not `None`, where `hard_mem_limit` is the hard
    address-space limit the process already has (`getrlimit(RLIMIT_AS)`);
  * `RLIMIT_CORE` with `(0, 0)` always.
We embed `_prepare_call` as the list of limit requests it issues, with the
ambient hard address-space limit as a parameter, and the operating system
(`subprocess`, the file system) as an explicit `World` argument to
`start`. -/

inductive RLimitKind where
  | cpu
  | addressSpace
  | core
deriving DecidableEq

structure LimitAction where
  kind : RLimitKind
  soft : Int
  hard : Int
deriving DecidableEq

def prepareCall (time_limit : Option Int) (memory_limit : Option Int)
    (hardMemLimit : Int) : List LimitAction :=
  (match time_limit with
   | some t => [⟨.cpu, t, t + 5⟩]
   | none => []) ++
  (match memory_limit with
   | some m => [⟨.addressSpace, m * 1024 * 1024, hardMemLimit⟩]
   | none => []) ++
  [⟨.core, 0, 0⟩]

structure Run where
  command : List String
  time_limit : Option Int
  memory_limit : Option Int
  log_on_fail : Bool
  log_always : Bool
  input_file : Option String
deriving DecidableEq

/-- Embedding of `Run.__init__` with all arguments supplied explicitly. -/
def Run.init (command : List String) (time_limit : Option Int)
    (memory_limit : Option Int) (log_output : Option String)
    (input_file : Option String) : Run :=
  { command := command
    time_limit := time_limit
    memory_limit := memory_limit
    log_on_fail := log_output = some "on_fail"
    log_always := log_output = some "always"
    input_file := input_file }

/-- Embedding of `Run(command)` with every keyword argument left at its
default: `time_limit=1800`, `memory_limit=None`, `log_output=None`,
`input_file=None`. -/
def Run.initDefault (command : List String) : Run :=
  Run.init command (some 1800) none none none

/-- The limit requests the `_prepare_call` closure built by `start` issues in
the child, given the ambient hard address-space limit. -/
def Run.prepareActions (run : Run) (hardMemLimit : Int) : List LimitAction :=
  prepareCall run.time_limit run.memory_limit hardMemLimit

/-- The operating-system facilities `start` uses: reading a file's contents
and executing a command (under the given limit requests, with the given
optional stdin text) to completion, yielding `(stdout, stderr, returncode)`. -/
structure World where
  readFile : String → String
  exec : List String → List LimitAction → Option String → String × String × Int

/-- Embedding of `Run.start`: builds the prepare-call actions from the run's
fields, pipes the input file's contents when one is given, executes the
command, and returns the result triple.  The `Run` value is returned
unchanged alongside the result, reflecting that the method never assigns to
`self`. -/
def Run.start (run : Run) (w : World) (hardMemLimit : Int) :
    (String × String × Int) × Run :=
  let actions := run.prepareActions hardMemLimit
  let input_text := run.input_file.map w.readFile
  (w.exec run.command actions input_text, run)

def cpuActions (actions : List LimitAction) : List LimitAction :=
  actions.filter (fun a => a.kind = .cpu)

def asActions (actions : List LimitAction) : List LimitAction :=
  actions.filter (fun a => a.kind = .addressSpace)

/-- C1: for every run with a non-`None` time limit `T`, the prepare-call step
issues exactly one CPU limit request, with soft limit `T` and hard limit
`T + 5`. -/
theorem run_cpu_limit (run : Run) (T : Int) (hardMemLimit : Int)
    (h : run.time_limit = some T) :
    cpuActions (run.prepareActions hardMemLimit) = [⟨.cpu, T, T + 5⟩] := by
  cases hm : run.memory_limit <;>
    simp [Run.prepareActions, prepareCall, cpuActions, h, hm, List.filter]

theorem run_cpu_limit_witness :
    (Run.init ["solver"] (some 60) (some 2048) none none).time_limit = some 60 ∧
    cpuActions ((Run.init ["solver"] (some 60) (some 2048) none none).prepareActions 99)
      = [⟨.cpu, 60, 65⟩] :=
  ⟨rfl, run_cpu_limit (Run.init ["solver"] (some 60) (some 2048) none none) 60 99 rfl⟩

/-- C7: for every run with a non-`None` memory limit of `M` MiB, the
prepare-call step issues exactly one address-space limit request, with soft
limit `M * 1024 * 1024` bytes and hard limit exactly the hard address-space
ceiling the process already had (so never a larger value). -/
theorem run_memory_limit (run : Run) (M : Int) (hardMemLimit : Int)
    (h : run.memory_limit = some M) :
    asActions (run.prepareActions hardMemLimit)
      = [⟨.addressSpace, M * 1024 * 1024, hardMemLimit⟩] := by
  cases ht : run.time_limit <;>
    simp [Run.prepareActions, prepareCall, asActions, h, ht, List.filter]

theorem run_memory_limit_witness :
    (Run.init ["solver"] (some 60) (some 2048) none none).memory_limit = some 2048 ∧
    asActions ((Run.init ["solver"] (some 60) (some 2048) none none).prepareActions 99)
      = [⟨.addressSpace, 2048 * 1024 * 1024, 99⟩] :=
  ⟨rfl, run_memory_limit (Run.init ["solver"] (some 60) (some 2048) none none) 2048 99 rfl⟩

/-- C10: a run constructed without an explicit time limit gets the default
time limit of 1800 seconds, so the prepare-call step still issues the CPU
limit request (soft 1800, hard 1805); only constructing the run with
`time_limit=None` explicitly disables CPU-time limiting. -/
theorem run_default_time_limit (command : List String) (memory_limit : Option Int)
    (log_output : Option String) (input_file : Option String) (hardMemLimit : Int) :
    (Run.initDefault command).time_limit = some 1800 ∧
    cpuActions ((Run.initDefault command).prepareActions hardMemLimit)
      = [⟨.cpu, 1800, 1805⟩] ∧
    (Run.init command none memory_limit log_output input_file).time_limit = none ∧
    cpuActions ((Run.init command none memory_limit log_output
      input_file).prepareActions hardMemLimit) = [] := by
  refine ⟨rfl, ?_, rfl, ?_⟩
  · simp [Run.initDefault, Run.init, Run.prepareActions, prepareCall, cpuActions,
      List.filter]
  · cases memory_limit <;>
      simp [Run.init, Run.prepareActions, prepareCall, cpuActions, List.filter]

/-- C9: `start` leaves every field of the run specification unchanged, and
two sequential `start` calls on the same specification are independent: the
second call's result is exactly what a fresh `start` on the original
specification produces, with no state carried over from the first call. -/
theorem run_start_frame (run : Run) (w w2 : World) (h h2 : Int) :
    (run.start w h).2 = run ∧
    (run.start w h).2.command = run.command ∧
    (run.start w h).2.time_limit = run.time_limit ∧
    (run.start w h).2.memory_limit = run.memory_limit ∧
    (run.start w h).2.input_file = run.input_file ∧
    ((run.start w h).2.start w2 h2).1 = (run.start w2 h2).1 :=
  ⟨rfl, rfl, rfl, rfl, rfl, rfl⟩

/-! ### State codec (`write_state` / `read_state`, tools.py lines 152-165)

`write_state(state, file_path)` opens the file for writing and stores
`pickle.dumps(state)`; `read_state(file_path)` opens the file and returns
`pickle.loads` of its contents.

Modelled from the spec: the serializer itself (`pickle`) is Python
standard-library code, not part of this repository.  Following §3 and §4.4
of the spec, a persisted state is an opaque value graph — nested
combinations of numbers, text, ordered sequences, and key-value mappings —
written to a single file as an opaque byte stream and restored as an equal
value graph.  We model the value graphs as the mutual inductive family
below, and the pickle byte stream as a tagged length-prefixed encoding.
The file system is an explicit map from paths to stored byte streams. -/

mutual
inductive PyValue where
  | int : Int → PyValue
  | str : String → PyValue
  | list : PyList → PyValue
  | dict : PyDict → PyValue
inductive PyList where
  | nil : PyList
  | cons : PyValue → PyList → PyList
inductive PyDict where
  | nil : PyDict
  | cons : PyValue → PyValue → PyDict → PyDict
end

def PyList.length : PyList → Nat
  | .nil => 0
  | .cons _ vs => vs.length + 1

def PyDict.length : PyDict → Nat
  | .nil => 0
  | .cons _ _ d => d.length + 1

def encodeInt (n : Int) : List Nat :=
  if n < 0 then [1, n.natAbs] else [0, n.natAbs]

mutual
def encodeV : PyValue → List Nat
  | .int n => 0 :: encodeInt n
  | .str s => 1 :: s.data.length :: s.data.map Char.toNat
  | .list xs => 2 :: xs.length :: encodeL xs
  | .dict d => 3 :: d.length :: encodeD d
def encodeL : PyList → List Nat
  | .nil => []
  | .cons v vs => encodeV v ++ encodeL vs
def encodeD : PyDict → List Nat
  | .nil => []
  | .cons k v d => encodeV k ++ encodeV v ++ encodeD d
end

/-! Recursion depth of a value graph; the fuel needed by the decoder. -/

mutual
def sizeV : PyValue → Nat
  | .int _ => 1
  | .str _ => 1
  | .list xs => sizeL xs + 1
  | .dict d => sizeD d + 1
def sizeL : PyList → Nat
  | .nil => 0
  | .cons v vs => max (sizeV v) (sizeL vs) + 1
def sizeD : PyDict → Nat
  | .nil => 0
  | .cons k v d => max (max (sizeV k) (sizeV v)) (sizeD d) + 1
end

mutual
def decodeV : Nat → List Nat → Option (PyValue × List Nat)
  | 0, _ => none
  | fuel + 1, input =>
    match input with
    | 0 :: 0 :: a :: rest => some (.int (Int.ofNat a), rest)
    | 0 :: 1 :: a :: rest => some (.int (-(Int.ofNat a)), rest)
    | 1 :: len :: rest =>
      if len ≤ rest.length then
        some (.str (String.mk ((rest.take len).map Char.ofNat)), rest.drop len)
      else none
    | 2 :: len :: rest =>
      match decodeL fuel len rest with
      | some (xs, r) => some (.list xs, r)
      | none => none
    | 3 :: len :: rest =>
      match decodeD fuel len rest with
      | some (d, r) => some (.dict d, r)
      | none => none
    | _ => none
def decodeL : Nat → Nat → List Nat → Option (PyList × List Nat)
  | _, 0, rest => some (.nil, rest)
  | 0, _ + 1, _ => none
  | fuel + 1, k + 1, rest =>
    match decodeV fuel rest with
    | some (v, r) =>
      match decodeL fuel k r with
      | some (vs, r2) => some (.cons v vs, r2)
      | none => none
    | none => none
def decodeD : Nat → Nat → List Nat → Option (PyDict × List Nat)
  | _, 0, rest => some (.nil, rest)
  | 0, _ + 1, _ => none
  | fuel + 1, k + 1, rest =>
    match decodeV fuel rest with
    | some (k0, r) =>
      match decodeV fuel r with
      | some (v, r2) =>
        match decodeD fuel k r2 with
        | some (d, r3) => some (.cons k0 v d, r3)
        | none => none
      | none => none
    | none => none
end

theorem sizeV_pos (v : PyValue) : 1 ≤ sizeV v := by
  cases v <;> simp [sizeV]

theorem decode_encode (fuel : Nat) :
    (∀ v : PyValue, sizeV v ≤ fuel →
      ∀ rest, decodeV fuel (encodeV v ++ rest) = some (v, rest)) ∧
    (∀ xs : PyList, sizeL xs ≤ fuel →
      ∀ rest, decodeL fuel xs.length (encodeL xs ++ rest) = some (xs, rest)) ∧
    (∀ d : PyDict, sizeD d ≤ fuel →
      ∀ rest, decodeD fuel d.length (encodeD d ++ rest) = some (d, rest)) := by
  induction fuel with
  | zero =>
    refine ⟨?_, ?_, ?_⟩
    · intro v hv
      have := sizeV_pos v
      omega
    · intro xs hxs rest
      cases xs with
      | nil => simp [PyList.length, encodeL, decodeL]
      | cons v vs => simp [sizeL] at hxs
    · intro d hd rest
      cases d with
      | nil => simp [PyDict.length, encodeD, decodeD]
      | cons k v d0 => simp [sizeD] at hd
  | succ f ih =>
    obtain ⟨ihV, ihL, ihD⟩ := ih
    refine ⟨?_, ?_, ?_⟩
    · intro v hv rest
      cases v with
      | int n =>
        by_cases hn : n < 0
        · simp [encodeV, encodeInt, hn, decodeV, abs_of_neg hn]
        · simp [encodeV, encodeInt, hn, decodeV,
            abs_of_nonneg (by omega : (0 : Int) ≤ n)]
      | str s =>
        simp only [encodeV, List.cons_append, decodeV]
        rw [if_pos (by simp)]
        rw [List.take_left' (by simp), List.drop_left' (by simp)]
        simp [List.map_map, Function.comp_def, Char.ofNat_toNat]
      | list xs =>
        have h1 : sizeL xs ≤ f := by simp [sizeV] at hv; omega
        simp [encodeV, decodeV, ihL xs h1 rest]
      | dict d =>
        have h1 : sizeD d ≤ f := by simp [sizeV] at hv; omega
        simp [encodeV, decodeV, ihD d h1 rest]
    · intro xs hxs rest
      cases xs with
      | nil => simp [PyList.length, encodeL, decodeL]
      | cons v vs =>
        have hv : sizeV v ≤ f := by simp [sizeL] at hxs; omega
        have hvs : sizeL vs ≤ f := by simp [sizeL] at hxs; omega
        simp [PyList.length, encodeL, decodeL, List.append_assoc,
          ihV v hv (encodeL vs ++ rest), ihL vs hvs rest]
    · intro d hd rest
      cases d with
      | nil => simp [PyDict.length, encodeD, decodeD]
      | cons k v d0 =>
        have hk : sizeV k ≤ f := by simp [sizeD] at hd; omega
        have hv : sizeV v ≤ f := by simp [sizeD] at hd; omega
        have hd0 : sizeD d0 ≤ f := by simp [sizeD] at hd; omega
        simp [PyDict.length, encodeD, decodeD, List.append_assoc,
          ihV k hk (encodeV v ++ (encodeD d0 ++ rest)),
          ihV v hv (encodeD d0 ++ rest), ihD d0 hd0 rest]

theorem encodeInt_length (n : Int) : (encodeInt n).length = 2 := by
  unfold encodeInt
  split <;> rfl

theorem encodeV_length_pos (v : PyValue) : 1 ≤ (encodeV v).length := by
  cases v <;> simp [encodeV]

mutual
theorem sizeV_le_encode : ∀ v : PyValue, sizeV v ≤ (encodeV v).length
  | .int n => by simp [sizeV, encodeV, encodeInt_length]
  | .str s => by simp [sizeV, encodeV]
  | .list xs => by
    have h := sizeL_le_encode xs
    simp only [sizeV, encodeV, List.length_cons]
    omega
  | .dict d => by
    have h := sizeD_le_encode d
    simp only [sizeV, encodeV, List.length_cons]
    omega
theorem sizeL_le_encode : ∀ xs : PyList, sizeL xs ≤ (encodeL xs).length + 1
  | .nil => by simp [sizeL, encodeL]
  | .cons v vs => by
    have h1 := sizeV_le_encode v
    have h2 := sizeL_le_encode vs
    have h3 := encodeV_length_pos v
    simp only [sizeL, encodeL, List.length_append]
    omega
theorem sizeD_le_encode : ∀ d : PyDict, sizeD d ≤ (encodeD d).length + 1
  | .nil => by simp [sizeD, encodeD]
  | .cons k v d0 => by
    have h1 := sizeV_le_encode k
    have h2 := sizeV_le_encode v
    have h3 := sizeD_le_encode d0
    have h4 := encodeV_length_pos k
    simp only [sizeD, encodeD, List.length_append]
    omega
end

/-- The serialized byte stream of a value graph; the model of
`pickle.dumps`. -/
def serialize (v : PyValue) : List Nat := encodeV v

/-- A file system maps paths to the byte streams of existing files. -/
def FileSystem : Type := String → Option (List Nat)

inductive ReadError where
  | missingFile
  | decodeFailure
deriving DecidableEq

/-- Embedding of `write_state(state, file_path)`: stores the serialized
state at the path, overwriting any existing file. -/
def write_state (state : PyValue) (file_path : String) (fs : FileSystem) :
    FileSystem :=
  fun p => if p = file_path then some (serialize state) else fs p

/-- Embedding of `read_state(file_path)`: fails with an I/O error when the
path is missing and with a decode error when the bytes are not a valid
encoding; otherwise returns the deserialized value graph. -/
def read_state (file_path : String) (fs : FileSystem) :
    Except ReadError PyValue :=
  match fs file_path with
  | none => .error .missingFile
  | some bytes =>
    match decodeV bytes.length bytes with
    | some (v, []) => .ok v
    | _ => .error .decodeFailure

/-- C2: for every supported value graph (nested combinations of numbers,
text, ordered sequences, and key-value mappings), writing it to a path with
the state codec and then reading that path back yields a value equal to the
original. -/
theorem write_read_roundtrip (v : PyValue) (file_path : String)
    (fs : FileSystem) :
    read_state file_path (write_state v file_path fs) = .ok v := by
  have hsize : sizeV v ≤ (serialize v).length := sizeV_le_encode v
  have h2 : decodeV (serialize v).length (serialize v) = some (v, []) := by
    have h := (decode_encode (serialize v).length).1 v hsize []
    rwa [List.append_nil] at h
  simp [read_state, write_state, h2]

end Machetli
